import Mathlib

/-!
# chapter2/thread_vector.cpp

A verification development for the fan-out/join program

    void f(int i){ std::cout<<"i is: "<<i<<std::endl; }
    int main(){
        std::vector<std::thread> threads;
        for(int i=0; i < 5; i++){ threads.push_back(std::thread(f, i)); }
        std::for_each(threads.begin(), threads.end(), std::mem_fn(&std::thread::join));
        return 0;
    }

The program is embedded as a step function on an explicit global state.  A
schedule is a list of choices made by the environment: which thread of
control performs its next action.  The shared output stream serialises the
individual insertions, so one insertion is one atomic step of a unit.
-/

namespace ThreadVector

/-! ## Definitions -/

/-- One stream insertion of the statement in the body of `f`. -/
inductive Insertion where
  | text (s : String)
  | int (k : Int)
  | endl
  deriving DecidableEq

/-- Decimal rendering of an `int`, as `operator<<` does with the default
stream flags: a minus sign for negatives, no leading zeros. -/
def decimal (k : Int) : List Char := (toString k).toList

/-- The character of the decimal digit `d`. -/
def digitOf (d : Nat) : Char := Char.ofNat (48 + d)

/-- The number a sequence of decimal digits denotes, most significant digit
first. -/
def valueOf (ds : List Nat) : Nat := ds.foldl (fun a d => 10 * a + d) 0

/-- The digit sequence `ds` is the decimal notation of `n`: at least one
digit, every digit below 10, the value is `n`, and no leading zero except
for the single digit of 0. -/
def IsDigitsOf (ds : List Nat) (n : Nat) : Prop :=
  ds ≠ [] ∧ (∀ d ∈ ds, d < 10) ∧ (ds.head? = some 0 → ds = [0]) ∧ valueOf ds = n

/-- The text `r` is the decimal rendering of the integer `k`: a minus sign
when `k` is negative, then the decimal notation of its absolute value. -/
def IsDecimalOf (r : List Char) (k : Int) : Prop :=
  ∃ ds, IsDigitsOf ds k.natAbs ∧ r = (if k < 0 then ['-'] else []) ++ ds.map digitOf

/-- The characters an insertion appends to the stream. -/
def Insertion.chars : Insertion → List Char
  | .text s => s.toList
  | .int k => decimal k
  | .endl => ['\n']

/-- The body of `void f(int i)`: its three insertions, in program order. -/
def f (i : Int) : List Insertion := [.text "i is: ", .int i, .endl]

/-- A call of `f` with nobody else writing: the insertions are appended to
the stream one after the other. -/
def callF (i : Int) (out : List Char) : List Char :=
  (f i).foldl (fun o ins => o ++ ins.chars) out

/-- An execution unit started by `std::thread(f, i)`: the copy of the
argument it was given and the number of insertions of `f` it has done. -/
structure ExecUnit where
  arg : Int
  pc : Nat
  deriving DecidableEq

/-- A `std::thread` object held in the vector: the unit it refers to and
whether it is still joinable. -/
structure Handle where
  id : Nat
  joinable : Bool
  deriving DecidableEq

/-- How the process stands: still running, returned from `main` with an exit
status, or terminated abnormally by an uncaught exception. -/
inductive Status where
  | running
  | exited (code : Int)
  | aborted
  deriving DecidableEq

/-- The actions of the main control flow that the trace records. -/
inductive Action where
  | create (id : Nat) (arg : Int)
  | join (id : Nat)
  deriving DecidableEq

/-- The state of the whole process.  `i` is the loop counter, `threads` the
vector of handles, `j` the position of the iterator of `std::for_each`,
`units` the execution units that exist, `out` the characters written to
`std::cout` so far, and `trace` the actions `main` has performed. -/
structure State where
  i : Nat
  threads : List Handle
  j : Nat
  status : Status
  units : List ExecUnit
  out : List Char
  trace : List Action
  deriving DecidableEq

/-- The state at the entry of `main`. -/
def init : State :=
  { i := 0, threads := [], j := 0, status := .running, units := [], out := [], trace := [] }

/-- What the environment decides at a step: the main control flow performs
its next action, the thread constructor `main` is about to call throws, or
unit `u` performs its next insertion. -/
inductive Choice where
  | main
  | spawnFails
  | unit (u : Nat)
  deriving DecidableEq

/-- The next action of the main control flow, for the loop bound `n`.
While `i < n` it constructs a thread running `f i` and pushes its handle.
After the loop `std::for_each` joins the handle at the iterator: `join`
throws on a handle that is not joinable, blocks (no step) while the unit
has not returned from `f`, and otherwise leaves the handle not joinable.
At the end of the vector `main` returns 0 and `threads` is destroyed: the
destructor of a handle that is still joinable calls `std::terminate`. -/
def stepMain (n : Nat) (s : State) : Option State :=
  if s.i < n then
    some { s with
      units := s.units ++ [{ arg := (s.i : Int), pc := 0 }]
      threads := s.threads ++ [{ id := s.units.length, joinable := true }]
      i := s.i + 1
      trace := s.trace ++ [Action.create s.units.length (s.i : Int)] }
  else
    match s.threads[s.j]? with
    | some h =>
      if h.joinable then
        match s.units[h.id]? with
        | some w =>
          if w.pc = (f w.arg).length then
            some { s with
              threads := s.threads.set s.j { h with joinable := false }
              j := s.j + 1
              trace := s.trace ++ [Action.join h.id] }
          else none
        | none => none
      else some { s with status := .aborted }
    | none =>
      if s.threads.any (fun h => h.joinable) then some { s with status := .aborted }
      else some { s with status := .exited 0 }

/-- The next insertion of unit `u`: enabled when the unit exists and has not
yet returned from `f`. -/
def stepUnit (s : State) (u : Nat) : Option State :=
  match s.units[u]? with
  | some w =>
    match (f w.arg)[w.pc]? with
    | some ins =>
      some { s with
        out := s.out ++ ins.chars
        units := s.units.set u { w with pc := w.pc + 1 } }
    | none => none
  | none => none

/-- One step of the process with loop bound `n`.  A process that has exited
or aborted takes no further step; a thread constructor can only fail while
`main` is in the creation loop, and the exception is not caught. -/
def step (n : Nat) (s : State) (c : Choice) : Option State :=
  if s.status = .running then
    match c with
    | .main => stepMain n s
    | .spawnFails => if s.i < n then some { s with status := .aborted } else none
    | .unit u => stepUnit s u
  else none

/-- Run a schedule from a state; `none` when some choice is not enabled. -/
def exec (n : Nat) (s : State) : List Choice → Option State
  | [] => some s
  | c :: cs => (step n s c).bind (fun s' => exec n s' cs)

/-- The runner with the task count as a parameter. -/
def runner (n : Nat) (sched : List Choice) : Option State := exec n init sched

/-- The program as written: the loop bound is 5. -/
def main (sched : List Choice) : Option State := runner 5 sched

/-- The lines of an output: the text before each end-of-line character, and
a last unterminated fragment if there is one. -/
def linesAux (cur : List Char) : List Char → List String
  | [] => if cur = [] then [] else [String.mk cur]
  | c :: rest => if c = '\n' then String.mk cur :: linesAux [] rest else linesAux (cur ++ [c]) rest

/-- The lines of an output. -/
def lines (out : List Char) : List String := linesAux [] out

/-- The schedule that runs every unit to completion right after its
creation. -/
def sequentialSchedule (n : Nat) : List Choice :=
  ((List.range n).flatMap fun k => [Choice.main, .unit k, .unit k, .unit k])
    ++ List.replicate n Choice.main ++ [Choice.main]

/-- What holds in every state the runner reaches. -/
structure Inv (n : Nat) (s : State) : Prop where
  i_le : s.i ≤ n
  units_len : s.units.length = s.i
  units_at : ∀ (k : Nat) (w : ExecUnit), s.units[k]? = some w → w.arg = (k : Int) ∧ w.pc ≤ 3
  threads_len : s.threads.length = s.i
  threads_at : ∀ (k : Nat) (h : Handle), s.threads[k]? = some h →
      h.id = k ∧ (h.joinable = true ↔ s.j ≤ k)
  j_le : s.j ≤ s.i
  j_zero : s.i < n → s.j = 0
  joined_done : ∀ (k : Nat) (w : ExecUnit), k < s.j → s.units[k]? = some w → w.pc = 3
  trace_eq : s.trace = (List.range s.i).map (fun (k : Nat) => Action.create k (k : Int))
      ++ (List.range s.j).map Action.join
  exited : ∀ c, s.status = .exited c → c = 0 ∧ s.i = n ∧ s.j = n
  aborted : s.status = .aborted → s.i < n

/-- The number of steps a state has behind it: loop iterations, joins,
insertions done by the units, and the final return or abort. -/
def progress (s : State) : Nat :=
  s.i + s.j + (s.units.map ExecUnit.pc).sum + (if s.status = .running then 0 else 1)

/-- The characters a unit has written so far: those of the insertions of
`f` it has performed. -/
def written (w : ExecUnit) : List Char :=
  ((f w.arg).take w.pc).flatMap Insertion.chars

/-- The output is at every moment a rearrangement of what the units have
written: no character is lost, duplicated or invented. -/
def OutInv (s : State) : Prop := s.out.Perm (s.units.flatMap written)

/-- The units that take the unit steps of a schedule, in order. -/
def unitSteps : List Choice → List Nat
  | [] => []
  | .unit u :: cs => u :: unitSteps cs
  | _ :: cs => unitSteps cs

/-- The line `f k` writes when nobody else writes in between. -/
def line (k : Nat) : List Char := callF (k : Int) []

/-- The number of insertions unit `k` has done; 0 for a unit not yet
created. -/
def pcOf (s : State) (k : Nat) : Nat :=
  match s.units[k]? with
  | some w => w.pc
  | none => 0

/-- One insertion of unit `u`, seen on the insertion counts and the stream
alone. -/
def ustep (p : Nat → Nat) (out : List Char) (u : Nat) : Option ((Nat → Nat) × List Char) :=
  match (f (u : Int))[p u]? with
  | some ins => some (Function.update p u (p u + 1), out ++ ins.chars)
  | none => none

/-- A sequence of insertions, seen on the insertion counts and the stream
alone. -/
def uexec (p : Nat → Nat) (out : List Char) : List Nat → Option ((Nat → Nat) × List Char)
  | [] => some (p, out)
  | u :: us => (ustep p out u).bind fun r => uexec r.1 r.2 us

/-- While no unit is in the middle of its line, the output is empty or ends
with an end-of-line. -/
def EndInv (s : State) : Prop :=
  (∀ w ∈ s.units, w.pc = 0 ∨ w.pc = 3) → s.out = [] ∨ s.out.getLast? = some '\n'

/-- Split a sequence of unit steps into blocks of three steps of one unit;
`none` when it is not made of such blocks. -/
def blocks : List Nat → Option (List Nat)
  | [] => some []
  | a :: b :: c :: rest =>
    if a = b ∧ b = c then (blocks rest).map (fun ks => a :: ks) else none
  | _ => none

/-- Every unit writes its line atomically: its three insertions are not
interleaved with the insertions of another unit. -/
def lineAtomic (sched : List Choice) : Prop := (blocks (unitSteps sched)).isSome = true

instance (sched : List Choice) : Decidable (lineAtomic sched) := by
  unfold lineAtomic
  infer_instance

/-- The state of `main` right after the creation loop when no unit has
started writing yet. -/
def afterCreation : State :=
  { i := 5
    threads := [⟨0, true⟩, ⟨1, true⟩, ⟨2, true⟩, ⟨3, true⟩, ⟨4, true⟩]
    j := 0
    status := .running
    units := [⟨0, 0⟩, ⟨1, 0⟩, ⟨2, 0⟩, ⟨3, 0⟩, ⟨4, 0⟩]
    out := []
    trace := [.create 0 0, .create 1 1, .create 2 2, .create 3 3, .create 4 4] }

/-- The sequence of actions of the main control flow, as the specification
words it: the five creations, then the five waits, both in the order
0,1,2,3,4. -/
def specTrace : List Action :=
  [.create 0 0, .create 1 1, .create 2 2, .create 3 3, .create 4 4,
   .join 0, .join 1, .join 2, .join 3, .join 4]

/-- The state in which `main` has returned 0 with the output `out`: five
units returned from `f`, five handles joined. -/
def finalState (out : List Char) : State :=
  { i := 5
    threads := [⟨0, false⟩, ⟨1, false⟩, ⟨2, false⟩, ⟨3, false⟩, ⟨4, false⟩]
    j := 5
    status := .exited 0
    units := [⟨0, 3⟩, ⟨1, 3⟩, ⟨2, 3⟩, ⟨3, 3⟩, ⟨4, 3⟩]
    out := out
    trace := specTrace }

/-- The final state of the sequential schedule. -/
def sequentialFinal : State :=
  finalState "i is: 0\ni is: 1\ni is: 2\ni is: 3\ni is: 4\n".toList

/-- The arguments of the creations in a sequence of actions, in order. -/
def createdArgs (t : List Action) : List Int :=
  t.filterMap fun a =>
    match a with
    | .create _ arg => some arg
    | .join _ => none

/-- The schedule that creates the five units and then lets them write their
lines one after the other in the order 4,3,2,1,0. -/
def reverseSchedule : List Choice :=
  List.replicate 5 Choice.main
    ++ ([4, 3, 2, 1, 0].flatMap fun k => [Choice.unit k, .unit k, .unit k])
    ++ List.replicate 6 Choice.main

/-- The five output lines, as the specification words them. -/
def specLines : List String := ["i is: 0", "i is: 1", "i is: 2", "i is: 3", "i is: 4"]

/-- The text of the line for `k`, without its end-of-line. -/
def lineText (k : Nat) : List Char := "i is: ".toList ++ decimal (k : Int)

/-- The program with every thread construction replaced by a direct call of
`f` and every join by nothing: the calls `f 0` to `f 4`, one after the
other. -/
def mainSequential : List Char :=
  (List.range 5).foldl (fun out (i : Nat) => callF (i : Int) out) []

/-- A schedule in which units 0 and 1 alternate their insertions. -/
def interleavedSchedule : List Choice :=
  List.replicate 5 Choice.main
    ++ [.unit 0, .unit 1, .unit 0, .unit 1, .unit 0, .unit 1]
    ++ ([2, 3, 4].flatMap fun k => [Choice.unit k, .unit k, .unit k])
    ++ List.replicate 6 Choice.main

/-! ## The structural invariant -/

theorem inv_init (n : Nat) : Inv n init := by
  constructor <;> simp [init]

theorem getElem?_snoc_some {α : Type} {l : List α} {a w : α} {k : Nat}
    (h : (l ++ [a])[k]? = some w) : l[k]? = some w ∨ (k = l.length ∧ w = a) := by
  rcases Nat.lt_or_ge k l.length with hk | hk
  · left
    rwa [List.getElem?_append_left hk] at h
  · right
    rw [List.getElem?_append_right hk] at h
    rcases Nat.eq_or_lt_of_le hk with he | hlt
    · subst he
      simp at h
      exact ⟨rfl, h.symm⟩
    · have : k - l.length ≠ 0 := by omega
      obtain ⟨m, hm⟩ := Nat.exists_eq_succ_of_ne_zero this
      rw [hm] at h
      simp at h

theorem getElem?_set_some {α : Type} {l : List α} {a w : α} {u k : Nat}
    (h : (l.set u a)[k]? = some w) : (k = u ∧ w = a) ∨ (k ≠ u ∧ l[k]? = some w) := by
  by_cases hk : u = k
  · subst hk
    left
    rw [List.getElem?_set] at h
    simp only [if_true] at h
    split at h
    · exact ⟨rfl, (Option.some.inj h).symm⟩
    · cases h
  · right
    rw [List.getElem?_set_ne hk] at h
    exact ⟨fun e => hk e.symm, h⟩

theorem none_joinable {n : Nat} {s : State} (hi : Inv n s) (hth : s.threads[s.j]? = none) :
    s.threads.any (fun h => h.joinable) = false := by
  have hlen : s.threads.length ≤ s.j := by simpa using hth
  rw [List.any_eq_false]
  intro hd hmem hjn
  obtain ⟨k, hk⟩ := List.mem_iff_getElem?.mp hmem
  have hlt := (List.getElem?_eq_some_iff.mp hk).1
  have := (hi.threads_at k hd hk).2.mp hjn
  omega

theorem inv_stepMain {n : Nat} {s s' : State} (hr : s.status = .running) (hi : Inv n s)
    (h : stepMain n s = some s') : Inv n s' := by
  unfold stepMain at h
  split at h
  · rename_i hlt
    injection h with h
    subst h
    have hj := hi.j_zero hlt
    constructor
    · show s.i + 1 ≤ n
      omega
    · simp [hi.units_len]
    · intro k w hk
      rcases getElem?_snoc_some hk with h1 | ⟨h1, h2⟩
      · exact hi.units_at k w h1
      · subst h2
        simp [h1, hi.units_len]
    · simp [hi.threads_len]
    · intro k h hk
      rcases getElem?_snoc_some hk with h1 | ⟨h1, h2⟩
      · exact hi.threads_at k h h1
      · subst h2
        simp [h1, hi.units_len, hi.threads_len, hj]
    · show s.j ≤ s.i + 1
      omega
    · intro _
      exact hj
    · intro k w hk
      simp only [hj] at hk
      omega
    · simp [hi.trace_eq, hj, List.range_succ, hi.units_len]
    · intro c hc
      simp [hr] at hc
    · intro hc
      simp [hr] at hc
  · rename_i hge
    have hin : s.i = n := Nat.le_antisymm hi.i_le (Nat.le_of_not_lt hge)
    split at h
    · rename_i hd hth
      have hth' := hi.threads_at _ _ hth
      split at h
      · rename_i hjn
        split at h
        · rename_i w hw
          split at h
          · rename_i hpc
            injection h with h
            subst h
            have hjlt : s.j < s.i := by
              have := (List.getElem?_eq_some_iff.mp hth).1
              rw [hi.threads_len] at this
              exact this
            constructor
            · exact hi.i_le
            · exact hi.units_len
            · exact hi.units_at
            · simp [hi.threads_len]
            · intro k h hk
              rcases getElem?_set_some hk with ⟨h1, h2⟩ | ⟨h1, h2⟩
              · subst h2
                subst h1
                simp [hth'.1]
              · have := hi.threads_at k h h2
                refine ⟨this.1, ?_⟩
                rw [this.2]
                show s.j ≤ k ↔ s.j + 1 ≤ k
                omega
            · show s.j + 1 ≤ s.i
              omega
            · intro hlt
              exact absurd hlt hge
            · intro k w' hk hw'
              have hk' : k < s.j + 1 := hk
              rcases Nat.lt_or_ge k s.j with h1 | h1
              · exact hi.joined_done k w' h1 hw'
              · have hkj : k = s.j := by omega
                subst hkj
                rw [hth'.1] at hw
                rw [hw] at hw'
                injection hw' with hw'
                subst hw'
                simpa [f] using hpc
            · simp [hi.trace_eq, List.range_succ, hth'.1]
            · intro c hc
              simp [hr] at hc
            · intro hc
              simp [hr] at hc
          · cases h
        · cases h
      · exfalso
        rename_i hnj
        exact hnj (hth'.2.mpr (Nat.le_refl _))
    · rename_i hth
      rw [none_joinable hi hth] at h
      injection h with h
      subst h
      have hlen : s.threads.length ≤ s.j := by
        simpa using hth
      rw [hi.threads_len] at hlen
      have hji : s.j = s.i := Nat.le_antisymm hi.j_le hlen
      constructor
      · exact hi.i_le
      · exact hi.units_len
      · exact hi.units_at
      · exact hi.threads_len
      · exact hi.threads_at
      · exact hi.j_le
      · exact hi.j_zero
      · exact hi.joined_done
      · exact hi.trace_eq
      · intro c hc
        injection hc with hc
        exact ⟨hc.symm, hin, hji.trans hin⟩
      · intro hc
        cases hc

theorem f_getElem?_lt {k : Int} {p : Nat} {ins : Insertion} (h : (f k)[p]? = some ins) :
    p < 3 := by
  have := (List.getElem?_eq_some_iff.mp h).1
  simpa [f] using this

theorem inv_stepUnit {n : Nat} {s s' : State} {u : Nat} (hi : Inv n s)
    (h : stepUnit s u = some s') : Inv n s' := by
  unfold stepUnit at h
  split at h
  · rename_i w hw
    split at h
    · rename_i ins hins
      injection h with h
      subst h
      have hpc := f_getElem?_lt hins
      constructor
      · exact hi.i_le
      · simp [hi.units_len]
      · intro k w' hk
        rcases getElem?_set_some hk with ⟨h1, h2⟩ | ⟨_, h2⟩
        · subst h1
          subst h2
          exact ⟨(hi.units_at k w hw).1, hpc⟩
        · exact hi.units_at k w' h2
      · exact hi.threads_len
      · exact hi.threads_at
      · exact hi.j_le
      · exact hi.j_zero
      · intro k w' hk hw'
        rcases getElem?_set_some hw' with ⟨h1, _⟩ | ⟨_, h2⟩
        · subst h1
          have := hi.joined_done k w hk hw
          omega
        · exact hi.joined_done k w' hk h2
      · exact hi.trace_eq
      · exact hi.exited
      · exact hi.aborted
    · cases h
  · cases h

theorem step_running {n : Nat} {s s' : State} {c : Choice} (h : step n s c = some s') :
    s.status = .running := by
  unfold step at h
  split at h
  · assumption
  · cases h

theorem inv_step {n : Nat} {s s' : State} {c : Choice} (hi : Inv n s)
    (h : step n s c = some s') : Inv n s' := by
  have hr := step_running h
  unfold step at h
  rw [if_pos hr] at h
  cases c with
  | main => exact inv_stepMain hr hi h
  | spawnFails =>
    simp only at h
    split at h
    · rename_i hlt
      injection h with h
      subst h
      exact ⟨hi.i_le, hi.units_len, hi.units_at, hi.threads_len, hi.threads_at, hi.j_le,
        hi.j_zero, hi.joined_done, hi.trace_eq, fun c hc => (by cases hc), fun _ => hlt⟩
    · cases h
  | unit u => exact inv_stepUnit hi h

theorem exec_cons {n : Nat} {s s' : State} {c : Choice} {cs : List Choice}
    (h : exec n s (c :: cs) = some s') : ∃ t, step n s c = some t ∧ exec n t cs = some s' := by
  simp only [exec] at h
  cases hs : step n s c with
  | none => simp [hs] at h
  | some t => exact ⟨t, rfl, by simpa [hs] using h⟩

theorem inv_exec {n : Nat} {sched : List Choice} : ∀ {s s' : State}, Inv n s →
    exec n s sched = some s' → Inv n s' := by
  induction sched with
  | nil =>
    intro s s' hi h
    simp only [exec] at h
    injection h with h
    exact h ▸ hi
  | cons c cs ih =>
    intro s s' hi h
    obtain ⟨t, ht, hrest⟩ := exec_cons h
    exact ih (inv_step hi ht) hrest

theorem inv_runner {n : Nat} {sched : List Choice} {s : State} (h : runner n sched = some s) :
    Inv n s :=
  inv_exec (inv_init n) h

/-! ## Steps taken, and progress -/

theorem sum_map_set {α : Type} (g : α → Nat) : ∀ (l : List α) (u : Nat) (w w' : α),
    l[u]? = some w → ((l.set u w').map g).sum + g w = (l.map g).sum + g w' := by
  intro l
  induction l with
  | nil => intro u w w' h; simp at h
  | cons a l ih =>
    intro u w w' h
    cases u with
    | zero =>
      simp at h
      subst h
      simp
      omega
    | succ u =>
      simp at h
      have := ih u w w' h
      simp only [List.set_cons_succ, List.map_cons, List.sum_cons]
      omega

theorem progress_step {n : Nat} {s s' : State} {c : Choice} (h : step n s c = some s') :
    progress s' = progress s + 1 := by
  have hr := step_running h
  unfold step at h
  rw [if_pos hr] at h
  cases c with
  | main =>
    simp only at h
    unfold stepMain at h
    split at h
    · injection h with h
      subst h
      simp [progress, hr]
      omega
    · split at h
      · split at h
        · split at h
          · split at h
            · injection h with h
              subst h
              simp [progress, hr]
              omega
            · cases h
          · cases h
        · injection h with h
          subst h
          simp [progress, hr]
      · split at h
        · injection h with h
          subst h
          simp [progress, hr]
        · injection h with h
          subst h
          simp [progress, hr]
  | spawnFails =>
    simp only at h
    split at h
    · injection h with h
      subst h
      simp [progress, hr]
    · cases h
  | unit u =>
    simp only at h
    unfold stepUnit at h
    split at h
    · rename_i w hw
      split at h
      · injection h with h
        subst h
        have := sum_map_set ExecUnit.pc s.units u w { w with pc := w.pc + 1 } hw
        simp only [progress, hr, if_true] at this ⊢
        omega
      · cases h
    · cases h

theorem progress_exec {n : Nat} {sched : List Choice} : ∀ {s s' : State},
    exec n s sched = some s' → progress s' = progress s + sched.length := by
  induction sched with
  | nil =>
    intro s s' h
    simp only [exec] at h
    injection h with h
    simp [h]
  | cons c cs ih =>
    intro s s' h
    obtain ⟨t, ht, hrest⟩ := exec_cons h
    rw [ih hrest, progress_step ht, List.length_cons]
    omega

theorem sum_pc_le : ∀ (l : List ExecUnit), (∀ w ∈ l, w.pc ≤ 3) →
    (l.map ExecUnit.pc).sum ≤ 3 * l.length := by
  intro l
  induction l with
  | nil => intro _; simp
  | cons a l ih =>
    intro h
    have h1 := h a (List.mem_cons_self a l)
    have h2 := ih (fun w hw => h w (List.mem_cons_of_mem a hw))
    simp only [List.map_cons, List.sum_cons, List.length_cons]
    omega

theorem sum_pc_eq : ∀ (l : List ExecUnit), (∀ w ∈ l, w.pc = 3) →
    (l.map ExecUnit.pc).sum = 3 * l.length := by
  intro l
  induction l with
  | nil => intro _; simp
  | cons a l ih =>
    intro h
    have h1 := h a (List.mem_cons_self a l)
    have h2 := ih (fun w hw => h w (List.mem_cons_of_mem a hw))
    simp only [List.map_cons, List.sum_cons, List.length_cons]
    omega

theorem Inv.pc_le {n : Nat} {s : State} (hi : Inv n s) : ∀ w ∈ s.units, w.pc ≤ 3 := by
  intro w hw
  obtain ⟨k, hk⟩ := List.getElem?_of_mem hw
  exact (hi.units_at k w hk).2

theorem Inv.all_done {n : Nat} {s : State} (hi : Inv n s) (hj : s.j = s.i) :
    ∀ w ∈ s.units, w.pc = 3 := by
  intro w hw
  obtain ⟨k, hk⟩ := List.getElem?_of_mem hw
  have hlt := (List.getElem?_eq_some_iff.mp hk).1
  rw [hi.units_len, ← hj] at hlt
  exact hi.joined_done k w hlt hk

theorem progress_le {n : Nat} {s : State} (hi : Inv n s) : progress s ≤ 5 * n + 1 := by
  have h1 := sum_pc_le s.units hi.pc_le
  have h2 := hi.units_len
  have h3 := hi.i_le
  have h4 := hi.j_le
  unfold progress
  split <;> omega

theorem progress_exited {n : Nat} {s : State} (hi : Inv n s) {c : Int}
    (hs : s.status = .exited c) : progress s = 5 * n + 1 := by
  obtain ⟨_, h1, h2⟩ := hi.exited c hs
  have h3 := sum_pc_eq s.units (hi.all_done (h2.trans h1.symm))
  have h4 := hi.units_len
  simp only [progress, hs]
  simp
  omega

theorem not_running_of_progress {n : Nat} {s : State} (hi : Inv n s)
    (hp : progress s = 5 * n + 1) : s.status ≠ .running := by
  intro hr
  have h1 := sum_pc_le s.units hi.pc_le
  have h2 := hi.units_len
  have h3 := hi.i_le
  have h4 := hi.j_le
  simp only [progress, hr, if_true] at hp
  omega

theorem exec_stopped {n : Nat} {s s' : State} {sched : List Choice} (hs : s.status ≠ .running)
    (h : exec n s sched = some s') : sched = [] ∧ s' = s := by
  cases sched with
  | nil =>
    simp only [exec] at h
    exact ⟨rfl, (Option.some.inj h).symm⟩
  | cons c cs =>
    obtain ⟨t, ht, _⟩ := exec_cons h
    exact absurd (step_running ht) hs

theorem step_status {n : Nat} {s s' : State} {c : Choice} (hi : Inv n s)
    (h : step n s c = some s') :
    (c = .spawnFails ∧ s'.status = .aborted) ∨
      (c ≠ .spawnFails ∧ (s'.status = .running ∨ s'.status = .exited 0)) := by
  have hr := step_running h
  unfold step at h
  rw [if_pos hr] at h
  cases c with
  | main =>
    right
    refine ⟨by simp, ?_⟩
    simp only at h
    unfold stepMain at h
    split at h
    · injection h with h
      subst h
      exact Or.inl hr
    · split at h
      · rename_i hd hth
        split at h
        · split at h
          · split at h
            · injection h with h
              subst h
              exact Or.inl hr
            · cases h
          · cases h
        · rename_i hnj
          exact absurd ((hi.threads_at _ _ hth).2.mpr (Nat.le_refl _)) hnj
      · rename_i hth
        rw [none_joinable hi hth] at h
        injection h with h
        subst h
        exact Or.inr rfl
  | spawnFails =>
    left
    refine ⟨rfl, ?_⟩
    simp only at h
    split at h
    · injection h with h
      subst h
      rfl
    · cases h
  | unit u =>
    right
    refine ⟨by simp, ?_⟩
    simp only at h
    unfold stepUnit at h
    split at h
    · split at h
      · injection h with h
        subst h
        exact Or.inl hr
      · cases h
    · cases h

/-- A run ends aborted exactly when the schedule contains a failing thread
construction; otherwise it is still running or has returned 0. -/
theorem exec_status {n : Nat} {sched : List Choice} : ∀ {s s' : State}, Inv n s →
    s.status = .running → exec n s sched = some s' →
    (Choice.spawnFails ∈ sched ∧ s'.status = .aborted) ∨
      (Choice.spawnFails ∉ sched ∧ (s'.status = .running ∨ s'.status = .exited 0)) := by
  induction sched with
  | nil =>
    intro s s' _ hr h
    simp only [exec] at h
    injection h with h
    subst h
    exact Or.inr ⟨by simp, Or.inl hr⟩
  | cons c cs ih =>
    intro s s' hi hr h
    obtain ⟨t, ht, hrest⟩ := exec_cons h
    rcases step_status hi ht with ⟨hc, hst⟩ | ⟨hc, hst | hst⟩
    · obtain ⟨_, h2⟩ := exec_stopped (by simp [hst]) hrest
      subst h2
      exact Or.inl ⟨by simp [hc], hst⟩
    · rcases ih (inv_step hi ht) hst hrest with ⟨h1, h2⟩ | ⟨h1, h2⟩
      · exact Or.inl ⟨List.mem_cons_of_mem _ h1, h2⟩
      · refine Or.inr ⟨?_, h2⟩
        intro hmem
        rcases List.mem_cons.mp hmem with h3 | h3
        · exact hc h3.symm
        · exact h1 h3
    · obtain ⟨h1, h2⟩ := exec_stopped (by simp [hst]) hrest
      subst h1
      subst h2
      refine Or.inr ⟨?_, Or.inr hst⟩
      simp
      exact fun e => hc e.symm

/-- A running process is never stuck: the main control flow or the unit it
waits for can take a step. -/
theorem step_enabled {n : Nat} {s : State} (hi : Inv n s) (hr : s.status = .running) :
    ∃ c, c ≠ Choice.spawnFails ∧ (step n s c).isSome = true := by
  by_cases hlt : s.i < n
  · refine ⟨.main, by simp, ?_⟩
    simp only [step, hr, if_true, stepMain, hlt, Option.isSome_some]
  · cases hth : s.threads[s.j]? with
    | none =>
      refine ⟨.main, by simp, ?_⟩
      simp only [step, hr, if_true, stepMain, hlt, if_false, hth, none_joinable hi hth,
        Option.isSome_some]
      rfl
    | some h =>
      have hth' := hi.threads_at _ _ hth
      have hjn : h.joinable = true := hth'.2.mpr (Nat.le_refl _)
      have hjlt : s.j < s.units.length := by
        have := (List.getElem?_eq_some_iff.mp hth).1
        rw [hi.threads_len] at this
        rw [hi.units_len]
        exact this
      have hw : s.units[h.id]? = some (s.units[s.j]) := by
        rw [hth'.1]
        exact List.getElem?_eq_getElem hjlt
      by_cases hpc : (s.units[s.j]).pc = (f (s.units[s.j]).arg).length
      · refine ⟨.main, by simp, ?_⟩
        simp only [step, hr, if_true, stepMain, hlt, if_false, hth, hjn, hw, hpc,
          Option.isSome_some]
      · have hle := (hi.units_at _ _ hw).2
        have hlt3 : (s.units[s.j]).pc < (f (s.units[s.j]).arg).length := by
          simp only [f, List.length_cons, List.length_nil] at hpc ⊢
          omega
        refine ⟨.unit s.j, by simp, ?_⟩
        rw [hth'.1] at hw
        simp only [step, hr, if_true, stepUnit, hw, List.getElem?_eq_getElem hlt3,
          Option.isSome_some]

/-- Every run without a failing thread construction can be continued to the
return of `main`. -/
theorem exec_complete {n : Nat} : ∀ (m : Nat) (s : State), Inv n s → s.status = .running →
    5 * n + 1 - progress s = m →
    ∃ ext s', Choice.spawnFails ∉ ext ∧ exec n s ext = some s' ∧ s'.status = .exited 0 := by
  intro m
  induction m with
  | zero =>
    intro s hi hr hm
    exfalso
    obtain ⟨c, _, hs⟩ := step_enabled hi hr
    obtain ⟨s', hs⟩ := Option.isSome_iff_exists.mp hs
    have h1 := progress_step hs
    have h2 := progress_le (inv_step hi hs)
    omega
  | succ m ih =>
    intro s hi hr hm
    obtain ⟨c, hc, hs⟩ := step_enabled hi hr
    obtain ⟨t, hs⟩ := Option.isSome_iff_exists.mp hs
    have hp := progress_step hs
    have hit := inv_step hi hs
    rcases step_status hi hs with ⟨h1, _⟩ | ⟨_, hst | hst⟩
    · exact absurd h1 hc
    · obtain ⟨ext, s', h1, h2, h3⟩ := ih t hit hst (by omega)
      refine ⟨c :: ext, s', ?_, ?_, h3⟩
      · intro hmem
        rcases List.mem_cons.mp hmem with h4 | h4
        · exact hc h4.symm
        · exact h1 h4
      · simp only [exec, hs, Option.some_bind, h2]
    · refine ⟨[c], t, ?_, ?_, hst⟩
      · simp
        exact fun e => hc e.symm
      · simp only [exec, hs, Option.some_bind]

/-! ## The output: conservation of characters -/

theorem perm_flatMap_set {α β : Type} (g : α → List β) : ∀ (l : List α) (u : Nat) (w w' : α)
    (x : List β), l[u]? = some w → g w' = g w ++ x →
    ((l.set u w').flatMap g).Perm (l.flatMap g ++ x) := by
  intro l
  induction l with
  | nil => intro u w w' x h; simp at h
  | cons a l ih =>
    intro u w w' x h hg
    cases u with
    | zero =>
      simp at h
      subst h
      simp only [List.set_cons_zero, List.flatMap_cons, hg, List.append_assoc]
      exact List.Perm.append_left _ List.perm_append_comm
    | succ u =>
      simp at h
      simp only [List.set_cons_succ, List.flatMap_cons, List.append_assoc]
      exact List.Perm.append_left _ (ih u w w' x h hg)

theorem written_succ {w : ExecUnit} {ins : Insertion} (h : (f w.arg)[w.pc]? = some ins) :
    written { w with pc := w.pc + 1 } = written w ++ ins.chars := by
  obtain ⟨hlt, hget⟩ := List.getElem?_eq_some_iff.mp h
  simp only [written]
  rw [List.take_succ, h]
  simp

theorem outInv_init : OutInv init := by
  simp [OutInv, init]

theorem outInv_step {n : Nat} {s s' : State} {c : Choice} (ho : OutInv s)
    (h : step n s c = some s') : OutInv s' := by
  have hr := step_running h
  unfold step at h
  rw [if_pos hr] at h
  cases c with
  | main =>
    simp only at h
    unfold stepMain at h
    split at h
    · injection h with h
      subst h
      simpa [OutInv, written] using ho
    · split at h
      · split at h
        · split at h
          · split at h
            · injection h with h
              subst h
              exact ho
            · cases h
          · cases h
        · injection h with h
          subst h
          exact ho
      · split at h
        · injection h with h
          subst h
          exact ho
        · injection h with h
          subst h
          exact ho
  | spawnFails =>
    simp only at h
    split at h
    · injection h with h
      subst h
      exact ho
    · cases h
  | unit u =>
    simp only at h
    unfold stepUnit at h
    split at h
    · rename_i w hw
      split at h
      · rename_i ins hins
        injection h with h
        subst h
        have h1 := perm_flatMap_set written s.units u w { w with pc := w.pc + 1 } ins.chars hw
          (written_succ hins)
        exact (List.Perm.append_right _ ho).trans h1.symm
      · cases h
    · cases h

theorem outInv_exec {n : Nat} {sched : List Choice} : ∀ {s s' : State}, OutInv s →
    exec n s sched = some s' → OutInv s' := by
  induction sched with
  | nil =>
    intro s s' ho h
    simp only [exec] at h
    injection h with h
    exact h ▸ ho
  | cons c cs ih =>
    intro s s' ho h
    obtain ⟨t, ht, hrest⟩ := exec_cons h
    exact ih (outInv_step ho ht) hrest

/-- What a unit has written is at every moment a subsequence of the output:
its characters are in the stream in the order in which it wrote them. -/
theorem sublist_step {n : Nat} {s s' : State} {c : Choice}
    (hs : ∀ w ∈ s.units, (written w).Sublist s.out) (h : step n s c = some s') :
    ∀ w ∈ s'.units, (written w).Sublist s'.out := by
  have hr := step_running h
  unfold step at h
  rw [if_pos hr] at h
  cases c with
  | main =>
    simp only at h
    unfold stepMain at h
    split at h
    · injection h with h
      subst h
      intro w hw
      rcases List.mem_append.mp hw with h1 | h1
      · exact hs w h1
      · rw [List.mem_singleton.mp h1]
        simp [written]
    · split at h
      · split at h
        · split at h
          · split at h
            · injection h with h
              subst h
              exact hs
            · cases h
          · cases h
        · injection h with h
          subst h
          exact hs
      · split at h
        · injection h with h
          subst h
          exact hs
        · injection h with h
          subst h
          exact hs
  | spawnFails =>
    simp only at h
    split at h
    · injection h with h
      subst h
      exact hs
    · cases h
  | unit u =>
    simp only at h
    unfold stepUnit at h
    split at h
    · rename_i w hw
      split at h
      · rename_i ins hins
        injection h with h
        subst h
        intro w' hw'
        obtain ⟨k, hk⟩ := List.mem_iff_getElem?.mp hw'
        rcases getElem?_set_some hk with ⟨_, h2⟩ | ⟨_, h2⟩
        · rw [h2, written_succ hins]
          exact List.Sublist.append (hs w (List.getElem?_mem hw)) (List.Sublist.refl _)
        · exact (hs w' (List.getElem?_mem h2)).trans (List.sublist_append_left _ _)
      · cases h
    · cases h

theorem sublist_exec {n : Nat} {sched : List Choice} : ∀ {s s' : State},
    (∀ w ∈ s.units, (written w).Sublist s.out) → exec n s sched = some s' →
    ∀ w ∈ s'.units, (written w).Sublist s'.out := by
  induction sched with
  | nil =>
    intro s s' hs h
    simp only [exec] at h
    injection h with h
    exact h ▸ hs
  | cons c cs ih =>
    intro s s' hs h
    obtain ⟨t, ht, hrest⟩ := exec_cons h
    exact ih (sublist_step hs ht) hrest

/-- Once every handle is joined the units are exactly the `i` units created,
unit `k` with argument `k`, each returned from `f`. -/
theorem Inv.units_eq {n : Nat} {s : State} (hi : Inv n s) (hj : s.j = s.i) :
    s.units = (List.range s.i).map (fun (k : Nat) => ({ arg := (k : Int), pc := 3 } : ExecUnit)) := by
  apply List.ext_getElem?
  intro k
  rcases Nat.lt_or_ge k s.i with hk | hk
  · have hlt : k < s.units.length := by rw [hi.units_len]; exact hk
    have hget := List.getElem?_eq_getElem hlt
    have h1 := hi.units_at k _ hget
    have h2 := hi.joined_done k _ (by omega) hget
    rw [hget]
    simp only [List.getElem?_map, List.getElem?_range hk, Option.map_some']
    congr 1
    cases hu : s.units[k] with
    | mk a p =>
      rw [hu] at h1 h2
      simp only at h1 h2
      rw [h1.1, h2]
  · rw [List.getElem?_eq_none (by rw [hi.units_len]; exact hk)]
    rw [List.getElem?_eq_none (by simpa using hk)]

/-! ## The output: projection onto the units -/

theorem pcOf_stepMain {n : Nat} {s s' : State} (h : stepMain n s = some s') :
    pcOf s' = pcOf s ∧ s'.out = s.out := by
  unfold stepMain at h
  split at h
  · injection h with h
    subst h
    refine ⟨?_, rfl⟩
    funext k
    simp only [pcOf]
    rcases Nat.lt_or_ge k s.units.length with hk | hk
    · rw [List.getElem?_append_left hk]
    · rw [List.getElem?_eq_none hk]
      rcases Nat.eq_or_lt_of_le hk with he | hlt
      · subst he
        simp
      · rw [List.getElem?_eq_none (by simp; omega)]
  · split at h
    · split at h
      · split at h
        · split at h
          · injection h with h
            subst h
            exact ⟨rfl, rfl⟩
          · cases h
        · cases h
      · injection h with h
        subst h
        exact ⟨rfl, rfl⟩
    · split at h
      · injection h with h
        subst h
        exact ⟨rfl, rfl⟩
      · injection h with h
        subst h
        exact ⟨rfl, rfl⟩

theorem pcOf_stepUnit {n : Nat} {s s' : State} {u : Nat} (hi : Inv n s)
    (h : stepUnit s u = some s') : ustep (pcOf s) s.out u = some (pcOf s', s'.out) := by
  unfold stepUnit at h
  split at h
  · rename_i w hw
    split at h
    · rename_i ins hins
      injection h with h
      subst h
      have harg := (hi.units_at u w hw).1
      have hp : pcOf s u = w.pc := by simp [pcOf, hw]
      simp only [ustep, hp, ← harg, hins]
      congr 2
      funext k
      by_cases hk : k = u
      · subst hk
        have hlt := (List.getElem?_eq_some_iff.mp hw).1
        simp [pcOf, List.getElem?_set_self hlt]
      · have hk' : u ≠ k := fun e => hk e.symm
        simp [pcOf, Function.update_noteq hk, List.getElem?_set_ne hk']
    · cases h
  · cases h

theorem uexec_of_exec {n : Nat} {sched : List Choice} : ∀ {s s' : State}, Inv n s →
    exec n s sched = some s' → uexec (pcOf s) s.out (unitSteps sched) = some (pcOf s', s'.out) := by
  induction sched with
  | nil =>
    intro s s' _ h
    simp only [exec] at h
    injection h with h
    subst h
    rfl
  | cons c cs ih =>
    intro s s' hi h
    obtain ⟨t, ht, hrest⟩ := exec_cons h
    have hr := step_running ht
    have hit := inv_step hi ht
    have ih' := ih hit hrest
    unfold step at ht
    rw [if_pos hr] at ht
    cases c with
    | main =>
      obtain ⟨h1, h2⟩ := pcOf_stepMain ht
      simp only [unitSteps]
      rw [← h1, ← h2]
      exact ih'
    | spawnFails =>
      simp only at ht
      split at ht
      · injection ht with ht
        subst ht
        simp only [unitSteps]
        exact ih'
      · cases ht
    | unit u =>
      simp only [unitSteps, uexec, pcOf_stepUnit hi ht, Option.some_bind]
      exact ih'

theorem line_eq (k : Nat) : line k = "i is: ".toList ++ decimal (k : Int) ++ ['\n'] := by
  simp [line, callF, f, Insertion.chars]

theorem uexec_block {p : Nat → Nat} {out : List Char} {u : Nat} {us : List Nat}
    {r : (Nat → Nat) × List Char} (hq : ∀ k, p k = 0 ∨ p k = 3)
    (h : uexec p out (u :: u :: u :: us) = some r) :
    p u = 0 ∧ uexec (Function.update p u 3) (out ++ line u) us = some r := by
  have h0 : p u = 0 := by
    rcases hq u with h0 | h3
    · exact h0
    · simp [uexec, ustep, h3, f] at h
  refine ⟨h0, ?_⟩
  simp only [uexec, ustep, h0, f, Function.update_same, Function.update_idem] at h
  simp only [List.getElem?_cons_zero, List.getElem?_cons_succ, Option.some_bind, zero_add,
    Nat.reduceAdd] at h
  simpa [line_eq, Insertion.chars, List.append_assoc] using h

/-- When the unit steps come in blocks of three, the output is the lines of
the blocks, one after the other, and no unit has two blocks. -/
theorem uexec_blocks : ∀ (ks : List Nat) (p : Nat → Nat) (out : List Char)
    (r : (Nat → Nat) × List Char), (∀ k, p k = 0 ∨ p k = 3) →
    uexec p out (ks.flatMap fun u => [u, u, u]) = some r →
    r.2 = out ++ ks.flatMap line ∧ ks.Nodup ∧ (∀ k ∈ ks, p k = 0) ∧
      (∀ k, r.1 k = if k ∈ ks then 3 else p k) := by
  intro ks
  induction ks with
  | nil =>
    intro p out r _ h
    simp only [List.flatMap_nil, uexec] at h
    injection h with h
    subst h
    simp
  | cons u ks ih =>
    intro p out r hq h
    simp only [List.flatMap_cons, List.cons_append, List.nil_append] at h
    obtain ⟨h0, h⟩ := uexec_block hq h
    have hq' : ∀ k, Function.update p u 3 k = 0 ∨ Function.update p u 3 k = 3 := by
      intro k
      by_cases hk : k = u
      · subst hk
        simp
      · rw [Function.update_noteq hk]
        exact hq k
    obtain ⟨h1, h2, h3, h4⟩ := ih _ _ r hq' h
    have hu : u ∉ ks := by
      intro hmem
      have := h3 u hmem
      simp at this
    refine ⟨?_, List.nodup_cons.mpr ⟨hu, h2⟩, ?_, ?_⟩
    · rw [h1]
      simp [List.append_assoc]
    · intro k hk
      rcases List.mem_cons.mp hk with he | hmem
      · rw [he]
        exact h0
      · have := h3 k hmem
        by_cases hku : k = u
        · subst hku
          exact absurd hmem hu
        · rwa [Function.update_noteq hku] at this
    · intro k
      rw [h4 k]
      by_cases hku : k = u
      · subst hku
        simp [hu]
      · simp [hku, Function.update_noteq hku]

/-! ## The output: lines -/

theorem linesAux_cons_nl (cur rest : List Char) :
    linesAux cur ('\n' :: rest) = String.mk cur :: linesAux [] rest := by
  simp [linesAux]

theorem linesAux_cons_ne (cur rest : List Char) {c : Char} (h : c ≠ '\n') :
    linesAux cur (c :: rest) = linesAux (cur ++ [c]) rest := by
  simp [linesAux, h]

theorem linesAux_line (l : List Char) : ∀ (cur rest : List Char), '\n' ∉ l →
    linesAux cur (l ++ '\n' :: rest) = String.mk (cur ++ l) :: linesAux [] rest := by
  induction l with
  | nil =>
    intro cur rest _
    simp [linesAux]
  | cons c l ih =>
    intro cur rest h
    have hc : c ≠ '\n' := fun e => h (by simp [e])
    have hl : '\n' ∉ l := fun e => h (List.mem_cons_of_mem _ e)
    rw [List.cons_append, linesAux_cons_ne _ _ hc, ih _ _ hl]
    simp

theorem lines_flatMap (text : Nat → List Char) : ∀ (ks : List Nat),
    (∀ k ∈ ks, '\n' ∉ text k) →
    lines (ks.flatMap fun k => text k ++ ['\n']) = ks.map fun k => String.mk (text k) := by
  intro ks
  induction ks with
  | nil =>
    intro _
    simp [lines, linesAux]
  | cons k ks ih =>
    intro h
    have h1 := h k (List.mem_cons_self k ks)
    have h2 := ih (fun k' hk' => h k' (List.mem_cons_of_mem k hk'))
    simp only [lines, List.flatMap_cons, List.map_cons, List.append_assoc, List.singleton_append]
      at h2 ⊢
    rw [linesAux_line _ _ _ h1, h2]
    simp

theorem linesAux_length (l : List Char) : ∀ (cur : List Char),
    (linesAux cur (l ++ ['\n'])).length = l.count '\n' + 1 := by
  induction l with
  | nil =>
    intro cur
    simp [linesAux]
  | cons c l ih =>
    intro cur
    by_cases hc : c = '\n'
    · subst hc
      rw [List.cons_append, linesAux_cons_nl, List.length_cons, ih, List.count_cons_self]
    · rw [List.cons_append, linesAux_cons_ne _ _ hc, ih,
        List.count_cons_of_ne (fun e => hc e.symm)]

theorem lines_length {out : List Char} (h : out = [] ∨ out.getLast? = some '\n') :
    (lines out).length = out.count '\n' := by
  rcases h with h | h
  · subst h
    simp [lines, linesAux]
  · obtain ⟨l, hl⟩ := List.getLast?_eq_some_iff.mp h
    subst hl
    rw [lines, linesAux_length]
    simp

theorem endInv_init : EndInv init := by
  intro _
  left
  rfl

theorem endInv_step {n : Nat} {s s' : State} {c : Choice} (he : EndInv s)
    (h : step n s c = some s') : EndInv s' := by
  have hr := step_running h
  unfold step at h
  rw [if_pos hr] at h
  cases c with
  | main =>
    simp only at h
    unfold stepMain at h
    split at h
    · injection h with h
      subst h
      intro hq
      exact he (fun w hw => hq w (List.mem_append_left _ hw))
    · split at h
      · split at h
        · split at h
          · split at h
            · injection h with h
              subst h
              exact he
            · cases h
          · cases h
        · injection h with h
          subst h
          exact he
      · split at h
        · injection h with h
          subst h
          exact he
        · injection h with h
          subst h
          exact he
  | spawnFails =>
    simp only at h
    split at h
    · injection h with h
      subst h
      exact he
    · cases h
  | unit u =>
    simp only at h
    unfold stepUnit at h
    split at h
    · rename_i w hw
      split at h
      · rename_i ins hins
        injection h with h
        subst h
        intro hq
        right
        have hlt := (List.getElem?_eq_some_iff.mp hw).1
        have hmem : ({ w with pc := w.pc + 1 } : ExecUnit) ∈ s.units.set u { w with pc := w.pc + 1 } :=
          List.getElem?_mem (List.getElem?_set_self hlt)
        have hpc : w.pc = 2 := by
          rcases hq _ hmem with h0 | h3
          · simp at h0
          · simp at h3
            exact h3
        rw [hpc] at hins
        simp only [f, List.getElem?_cons_succ, List.getElem?_cons_zero] at hins
        injection hins with hins
        subst hins
        simp [Insertion.chars]
      · cases h
    · cases h

theorem endInv_exec {n : Nat} {sched : List Choice} : ∀ {s s' : State}, EndInv s →
    exec n s sched = some s' → EndInv s' := by
  induction sched with
  | nil =>
    intro s s' he h
    simp only [exec] at h
    injection h with h
    exact h ▸ he
  | cons c cs ih =>
    intro s s' he h
    obtain ⟨t, ht, hrest⟩ := exec_cons h
    exact ih (endInv_step he ht) hrest

/-! ## Line-atomic schedules -/

theorem blocks_some : ∀ (us ks : List Nat), blocks us = some ks →
    us = ks.flatMap fun u => [u, u, u] := by
  intro us
  induction us using blocks.induct with
  | case1 =>
    intro ks h
    simp only [blocks] at h
    injection h with h
    subst h
    rfl
  | case2 a b c rest habc ih =>
    intro ks h
    simp only [blocks, habc, and_self, if_true] at h
    obtain ⟨hab, hbc⟩ := habc
    cases hb : blocks rest with
    | none => simp [hb] at h
    | some ks' =>
      rw [hb] at h
      simp only [Option.map_some'] at h
      injection h with h
      subst h
      subst hab
      subst hbc
      simp [← ih ks' hb]
  | case3 a b c rest habc =>
    intro ks h
    simp only [blocks, habc, if_false] at h
    cases h
  | case4 us h1 h2 =>
    intro ks h
    unfold blocks at h
    split at h
    · exact absurd rfl h1
    · exact absurd rfl (h2 _ _ _ _)
    · cases h

theorem pcOf_init : pcOf init = fun _ => 0 := by
  funext k
  simp [pcOf, init]

theorem pcOf_done {n : Nat} {s : State} (hi : Inv n s) (hj : s.j = s.i) (k : Nat) :
    pcOf s k = if k < s.i then 3 else 0 := by
  simp only [pcOf]
  split
  · rename_i w hw
    have hlt := (List.getElem?_eq_some_iff.mp hw).1
    rw [hi.units_len] at hlt
    rw [if_pos hlt]
    exact hi.joined_done k w (by omega) hw
  · rename_i hw
    have : s.units.length ≤ k := by simpa using hw
    rw [hi.units_len] at this
    rw [if_neg (by omega)]

/-- A complete run whose unit steps come in blocks writes the lines of the
blocks in order, and the blocks are those of the `n` units, each once. -/
theorem atomic_output {n : Nat} {sched : List Choice} {s : State} {ks : List Nat}
    (h : runner n sched = some s) (hs : s.status = .exited 0)
    (hb : blocks (unitSteps sched) = some ks) :
    s.out = ks.flatMap line ∧ ks.Perm (List.range n) := by
  have hi := inv_runner h
  obtain ⟨_, hin, hjn⟩ := hi.exited 0 hs
  have hu := uexec_of_exec (inv_init n) h
  rw [blocks_some _ _ hb, pcOf_init] at hu
  obtain ⟨h1, h2, _, h4⟩ := uexec_blocks ks _ _ _ (fun _ => Or.inl rfl) hu
  refine ⟨by simpa using h1, ?_⟩
  apply (List.perm_ext_iff_of_nodup h2 (List.nodup_range n)).mpr
  intro k
  have h5 := h4 k
  simp only at h5
  rw [pcOf_done hi (hjn.trans hin.symm) k, hin] at h5
  rw [List.mem_range]
  constructor
  · intro hk
    by_contra hlt
    rw [if_neg hlt, if_pos hk] at h5
    omega
  · intro hk
    by_contra hmem
    rw [if_pos hk, if_neg hmem] at h5
    omega

/-! ## The work function (C7) -/

/-- The decimal rendering at the ends of the range of `int`, at 0 and at a
negative number. -/
theorem decimal_examples :
    decimal 0 = "0".toList ∧ decimal (-7) = "-7".toList ∧
    decimal 2147483647 = "2147483647".toList ∧
    decimal (-2147483648) = "-2147483648".toList := by
  decide

theorem digitChar_eq (d : Nat) (h : d < 10) : Nat.digitChar d = digitOf d := by
  interval_cases d <;> rfl

theorem valueOf_snoc (ds : List Nat) (d : Nat) : valueOf (ds ++ [d]) = 10 * valueOf ds + d := by
  simp [valueOf, List.foldl_append]

theorem toDigitsCore_spec : ∀ (fuel n : Nat) (acc : List Char), n < fuel →
    ∃ ds, IsDigitsOf ds n ∧ Nat.toDigitsCore 10 fuel n acc = ds.map digitOf ++ acc := by
  intro fuel
  induction fuel with
  | zero => intro n acc h; omega
  | succ fuel ih =>
    intro n acc h
    have hmod : n % 10 < 10 := Nat.mod_lt _ (by decide)
    by_cases hz : n / 10 = 0
    · refine ⟨[n], ⟨by simp, ?_, ?_, ?_⟩, ?_⟩
      · intro d hd
        rw [List.mem_singleton.mp hd]
        omega
      · intro h0
        simp at h0
        rw [h0]
      · simp [valueOf]
      · have hn : n % 10 = n := by omega
        simp only [Nat.toDigitsCore, hz, if_true, List.map_cons, List.map_nil,
          List.singleton_append]
        rw [hn, digitChar_eq n (by omega)]
    · have hlt : n / 10 < fuel := by omega
      obtain ⟨ds, ⟨h1, h2, h3, h4⟩, h5⟩ := ih (n / 10) (Nat.digitChar (n % 10) :: acc) hlt
      refine ⟨ds ++ [n % 10], ⟨by simp, ?_, ?_, ?_⟩, ?_⟩
      · intro d hd
        rcases List.mem_append.mp hd with hd | hd
        · exact h2 d hd
        · rw [List.mem_singleton.mp hd]
          exact hmod
      · intro h0
        exfalso
        have hh : ds.head? = some 0 := by
          cases ds with
          | nil => exact absurd rfl h1
          | cons a l => simpa using h0
        have := h3 hh
        rw [this] at h4
        simp [valueOf] at h4
        omega
      · rw [valueOf_snoc, h4]
        omega
      · simp only [Nat.toDigitsCore, hz, if_false]
        rw [h5, digitChar_eq _ hmod]
        simp

theorem valueOf_eq_ofDigits (ds : List Nat) : valueOf ds = Nat.ofDigits 10 ds.reverse := by
  induction ds using List.reverseRecOn with
  | nil => simp [valueOf]
  | append_singleton l a ih =>
    rw [valueOf_snoc, ih, List.reverse_append, List.reverse_singleton, List.singleton_append,
      Nat.ofDigits_cons]
    omega

theorem isDigitsOf_unique {ds ds' : List Nat} {n : Nat} (h : IsDigitsOf ds n)
    (h' : IsDigitsOf ds' n) : ds = ds' := by
  have key : ∀ {l : List Nat}, IsDigitsOf l n →
      (n = 0 ∧ l = [0]) ∨ (n ≠ 0 ∧ l.reverse = Nat.digits 10 n) := by
    intro l ⟨h1, h2, h3, h4⟩
    by_cases hh : l.head? = some 0
    · left
      have := h3 hh
      rw [this] at h4
      exact ⟨by simpa [valueOf] using h4.symm, this⟩
    · right
      have hd : Nat.digits 10 (Nat.ofDigits 10 l.reverse) = l.reverse := by
        apply Nat.digits_ofDigits 10 (by decide)
        · intro d hd
          exact h2 d (List.mem_reverse.mp hd)
        · intro hne
          rw [List.getLast_reverse]
          intro h0
          apply hh
          rw [List.head?_eq_head h1, h0]
      rw [← valueOf_eq_ofDigits, h4] at hd
      refine ⟨?_, hd.symm⟩
      intro hn
      rw [hn, Nat.digits_zero] at hd
      exact h1 (List.reverse_eq_nil_iff.mp hd.symm)
  rcases key h with ⟨a1, a2⟩ | ⟨a1, a2⟩ <;> rcases key h' with ⟨b1, b2⟩ | ⟨b1, b2⟩
  · rw [a2, b2]
  · exact absurd a1 b1
  · exact absurd b1 a1
  · exact List.reverse_injective (a2.trans b2.symm)

theorem decimal_spec (k : Int) : IsDecimalOf (decimal k) k := by
  cases k with
  | ofNat n =>
    obtain ⟨ds, h1, h2⟩ := toDigitsCore_spec (n + 1) n [] (by omega)
    refine ⟨ds, h1, ?_⟩
    have hd : decimal (Int.ofNat n) = Nat.toDigitsCore 10 (n + 1) n [] := rfl
    rw [hd, h2]
    simp
  | negSucc n =>
    obtain ⟨ds, h1, h2⟩ := toDigitsCore_spec (n + 1 + 1) (n + 1) [] (by omega)
    refine ⟨ds, h1, ?_⟩
    have hd : decimal (Int.negSucc n) = '-' :: Nat.toDigitsCore 10 (n + 1 + 1) (n + 1) [] := rfl
    rw [hd, h2]
    simp [Int.negSucc_lt_zero]

theorem isDecimalOf_unique {r r' : List Char} {k : Int} (h : IsDecimalOf r k)
    (h' : IsDecimalOf r' k) : r = r' := by
  obtain ⟨ds, h1, h2⟩ := h
  obtain ⟨ds', h1', h2'⟩ := h'
  rw [h2, h2', isDigitsOf_unique h1 h1']

/-- The rendering of -12 is a minus sign and the digits 1 and 2. -/
theorem isDecimalOf_example : IsDecimalOf "-12".toList (-12) :=
  ⟨[1, 2], ⟨by decide, by decide, by decide, by decide⟩, by decide⟩

theorem callF_eq (k : Int) (out : List Char) :
    callF k out = out ++ "i is: ".toList ++ decimal k ++ ['\n'] := by
  simp [callF, f, Insertion.chars]

/-- C7: a call `f k` that no other writer interferes with appends exactly
the text "i is: ", the decimal rendering of `k` and one end-of-line to the
stream, where the decimal rendering of `k` is the one text made of a minus
sign when `k` is negative followed by the decimal digits of its absolute
value, most significant first and without a leading zero; run as the three
steps of a unit the call changes nothing in the state but the stream and the
unit's own position; for `k` from 0 to 4 the line is "i is: " followed by
the single digit `k`. -/
theorem f_appends_line (n : Nat) (s : State) (u : Nat) (k : Int) (hr : s.status = .running)
    (hu : s.units[u]? = some { arg := k, pc := 0 }) :
    (∃ r, IsDecimalOf r k ∧ (∀ r', IsDecimalOf r' k → r' = r) ∧
      callF k s.out = s.out ++ "i is: ".toList ++ r ++ ['\n']) ∧
    exec n s [.unit u, .unit u, .unit u]
      = some { s with out := callF k s.out, units := s.units.set u { arg := k, pc := 3 } } ∧
    (0 ≤ k → k ≤ 4 →
      callF k s.out = s.out ++ "i is: ".toList ++ [Char.ofNat (48 + k.toNat)] ++ ['\n']) := by
  refine ⟨⟨decimal k, decimal_spec k, fun r' h' => isDecimalOf_unique h' (decimal_spec k),
    callF_eq k s.out⟩, ?_, ?_⟩
  · have hlt := (List.getElem?_eq_some_iff.mp hu).1
    simp [exec, step, hr, stepUnit, hu, f, List.getElem?_set_self hlt, callF_eq,
      Insertion.chars, List.set_set]
  · intro h0 h4
    rw [callF_eq]
    interval_cases k <;> rfl

/-- C7, at concrete states: one freshly created unit with argument -12, and
one with argument 3. -/
theorem f_appends_line_witness :
    callF (-12) [] = "i is: -12\n".toList ∧
    exec 5 { init with i := 1, units := [{ arg := -12, pc := 0 }] } [.unit 0, .unit 0, .unit 0]
      = some { init with i := 1, units := [{ arg := -12, pc := 3 }],
                         out := callF (-12) [] } ∧
    callF 3 [] = "i is: 3\n".toList := by
  refine ⟨?_, ?_, ?_⟩
  · obtain ⟨r, _, h2, h3⟩ :=
      (f_appends_line 5 { init with i := 1, units := [{ arg := -12, pc := 0 }] } 0 (-12)
        rfl rfl).1
    rw [← h2 _ isDecimalOf_example] at h3
    exact h3
  · exact (f_appends_line 5 { init with i := 1, units := [{ arg := -12, pc := 0 }] } 0 (-12)
      rfl rfl).2.1
  · exact (f_appends_line 5 { init with i := 1, units := [{ arg := 3, pc := 0 }] } 0 3
      rfl rfl).2.2 (by decide) (by decide)

/-! ## The creation phase (C2) -/

theorem Inv.units_args {n : Nat} {s : State} (hi : Inv n s) :
    s.units.map ExecUnit.arg = (List.range s.i).map (fun (k : Nat) => (k : Int)) := by
  apply List.ext_getElem?
  intro k
  simp only [List.getElem?_map]
  rcases Nat.lt_or_ge k s.i with hk | hk
  · have hlt : k < s.units.length := by rw [hi.units_len]; exact hk
    have hget := List.getElem?_eq_getElem hlt
    rw [hget, List.getElem?_range hk]
    simp only [Option.map_some']
    rw [(hi.units_at k _ hget).1]
  · rw [List.getElem?_eq_none (by rw [hi.units_len]; exact hk)]
    rw [List.getElem?_eq_none (by simpa using hk)]
    rfl

theorem Inv.threads_ids {n : Nat} {s : State} (hi : Inv n s) :
    s.threads.map Handle.id = List.range s.i := by
  apply List.ext_getElem?
  intro k
  simp only [List.getElem?_map]
  rcases Nat.lt_or_ge k s.i with hk | hk
  · have hlt : k < s.threads.length := by rw [hi.threads_len]; exact hk
    have hget := List.getElem?_eq_getElem hlt
    rw [hget, List.getElem?_range hk]
    simp only [Option.map_some']
    rw [(hi.threads_at k _ hget).1]
  · rw [List.getElem?_eq_none (by rw [hi.threads_len]; exact hk)]
    rw [List.getElem?_eq_none (by simpa using hk)]
    rfl

/-- C2: the creation loop of `main` creates the units one per iteration and
never more than 5; the handle at position `k` of `threads` refers to unit
`k`, which runs `f` with argument `k`; once the loop is left there are
exactly 5 units with arguments 0,1,2,3,4 in this order, `threads` holds
their 5 handles in the same order, and the first five actions of `main` are
the five creations in the order 0,1,2,3,4. -/
theorem creation_phase (sched : List Choice) (s : State) (h : main sched = some s) :
    s.i ≤ 5 ∧ s.units.length = s.i ∧ s.threads.length = s.i ∧
    (∀ (k : Nat) (hd : Handle), s.threads[k]? = some hd →
      hd.id = k ∧ ∃ w, s.units[hd.id]? = some w ∧ w.arg = (k : Int)) ∧
    (5 ≤ s.i →
      s.units.map ExecUnit.arg = [0, 1, 2, 3, 4] ∧
      s.threads.map Handle.id = [0, 1, 2, 3, 4] ∧
      s.trace.take 5
        = [.create 0 0, .create 1 1, .create 2 2, .create 3 3, .create 4 4]) := by
  have hi : Inv 5 s := inv_runner h
  refine ⟨hi.i_le, hi.units_len, hi.threads_len, ?_, ?_⟩
  · intro k hd hk
    have h1 := hi.threads_at k hd hk
    have hlt : k < s.units.length := by
      have := (List.getElem?_eq_some_iff.mp hk).1
      rw [hi.threads_len] at this
      rw [hi.units_len]
      exact this
    have hget := List.getElem?_eq_getElem hlt
    refine ⟨h1.1, s.units[k], ?_, (hi.units_at k _ hget).1⟩
    rw [h1.1]
    exact hget
  · intro h5
    have hi5 : s.i = 5 := Nat.le_antisymm hi.i_le h5
    refine ⟨?_, ?_, ?_⟩
    · rw [hi.units_args, hi5]
      rfl
    · rw [hi.threads_ids, hi5]
      rfl
    · rw [hi.trace_eq, hi5]
      rfl

/-- C2, on the schedule that lets `main` run its loop before any unit
writes. -/
theorem creation_phase_witness :
    main [.main, .main, .main, .main, .main] = some afterCreation ∧
    afterCreation.units.map ExecUnit.arg = [0, 1, 2, 3, 4] ∧
    afterCreation.threads.map Handle.id = [0, 1, 2, 3, 4] :=
  ⟨rfl,
   ((creation_phase [.main, .main, .main, .main, .main] afterCreation rfl).2.2.2.2
      (by decide)).1,
   ((creation_phase [.main, .main, .main, .main, .main] afterCreation rfl).2.2.2.2
      (by decide)).2.1⟩

/-! ## The actions of the main control flow (C3, C4) -/

theorem Inv.count_join {n : Nat} {s : State} (hi : Inv n s) (k : Nat) :
    s.trace.count (Action.join k) = if k < s.j then 1 else 0 := by
  rw [hi.trace_eq, List.count_append]
  have h1 : ((List.range s.i).map (fun (k : Nat) => Action.create k (k : Int))).count
      (Action.join k) = 0 := by
    apply List.count_eq_zero.mpr
    intro hmem
    obtain ⟨_, _, h⟩ := List.mem_map.mp hmem
    cases h
  have hinj : Function.Injective Action.join := by
    intro a b hab
    injection hab
  rw [h1, List.count_map_of_injective _ _ hinj, zero_add]
  split
  · rename_i hlt
    exact List.count_eq_one_of_mem (List.nodup_range _) (List.mem_range.mpr hlt)
  · rename_i hlt
    exact List.count_eq_zero.mpr (fun hmem => hlt (List.mem_range.mp hmem))

theorem trace_prefix (i j : Nat) (hi : i ≤ 5) (hj : j ≤ i) (hz : i < 5 → j = 0) :
    (List.range i).map (fun (k : Nat) => Action.create k (k : Int))
      ++ (List.range j).map Action.join <+: specTrace := by
  interval_cases i
  · obtain rfl : j = 0 := hz (by decide)
    decide
  · obtain rfl : j = 0 := hz (by decide)
    decide
  · obtain rfl : j = 0 := hz (by decide)
    decide
  · obtain rfl : j = 0 := hz (by decide)
    decide
  · obtain rfl : j = 0 := hz (by decide)
    decide
  · interval_cases j <;> decide

theorem Inv.mem_create {n : Nat} {s : State} (hi : Inv n s) {k : Nat} {arg : Int}
    (h : Action.create k arg ∈ s.trace) : k < s.i ∧ arg = (k : Int) := by
  rw [hi.trace_eq] at h
  rcases List.mem_append.mp h with h | h
  · obtain ⟨m, hm, he⟩ := List.mem_map.mp h
    injection he with h1 h2
    subst h1
    exact ⟨List.mem_range.mp hm, h2.symm⟩
  · obtain ⟨_, _, he⟩ := List.mem_map.mp h
    cases he

theorem Inv.mem_join {n : Nat} {s : State} (hi : Inv n s) {k : Nat}
    (h : Action.join k ∈ s.trace) : k < s.j := by
  rw [hi.trace_eq] at h
  rcases List.mem_append.mp h with h | h
  · obtain ⟨_, _, he⟩ := List.mem_map.mp h
    cases he
  · obtain ⟨m, hm, he⟩ := List.mem_map.mp h
    injection he with h1
    subst h1
    exact List.mem_range.mp hm

/-- C3: in a run of `main` no handle is ever joined twice; the actions of
`main` are creations followed by joins, and every join is the join of a
handle created before it; when `main` has returned, every handle that was
created has been joined exactly once and none in `threads` is left joinable. -/
theorem every_handle_joined_once (sched : List Choice) (s : State) (h : main sched = some s) :
    (∀ k, s.trace.count (Action.join k) ≤ 1) ∧
    (∃ cs js, s.trace = cs ++ js ∧
      (∀ a ∈ cs, ∃ k : Nat, a = Action.create k (k : Int)) ∧
      (∀ a ∈ js, ∃ k : Nat, a = Action.join k ∧ Action.create k (k : Int) ∈ cs)) ∧
    (∀ c, s.status = .exited c →
      (∀ k arg, Action.create k arg ∈ s.trace → s.trace.count (Action.join k) = 1) ∧
      s.threads.length = 5 ∧
      (∀ hd ∈ s.threads, hd.joinable = false ∧ s.trace.count (Action.join hd.id) = 1)) := by
  have hi : Inv 5 s := inv_runner h
  refine ⟨?_, ?_, ?_⟩
  · intro k
    rw [hi.count_join]
    split <;> omega
  · refine ⟨_, _, hi.trace_eq, ?_, ?_⟩
    · intro a ha
      obtain ⟨k, _, hk⟩ := List.mem_map.mp ha
      exact ⟨k, hk.symm⟩
    · intro a ha
      obtain ⟨k, hk, he⟩ := List.mem_map.mp ha
      refine ⟨k, he.symm, List.mem_map.mpr ⟨k, ?_, rfl⟩⟩
      have := List.mem_range.mp hk
      exact List.mem_range.mpr (Nat.lt_of_lt_of_le this hi.j_le)
  · intro c hc
    obtain ⟨_, h5, hj5⟩ := hi.exited c hc
    refine ⟨?_, ?_, ?_⟩
    · intro k arg hk
      rw [hi.count_join, if_pos]
      have := (hi.mem_create hk).1
      omega
    · rw [hi.threads_len, h5]
    · intro hd hmem
      obtain ⟨k, hk⟩ := List.mem_iff_getElem?.mp hmem
      have hlt := (List.getElem?_eq_some_iff.mp hk).1
      rw [hi.threads_len] at hlt
      obtain ⟨h1, h2⟩ := hi.threads_at k hd hk
      constructor
      · cases hjn : hd.joinable with
        | false => rfl
        | true =>
          have := h2.mp hjn
          omega
      · rw [hi.count_join, if_pos]
        rw [h1]
        omega

/-- C3, on the sequential schedule: it runs to the return of `main`, where
handle 2 has been joined once. -/
theorem every_handle_joined_once_witness :
    main (sequentialSchedule 5) = some sequentialFinal ∧
    sequentialFinal.trace.count (Action.join 2) = 1 :=
  ⟨rfl, ((every_handle_joined_once (sequentialSchedule 5) sequentialFinal rfl).2.2 0 rfl).1 2 2
    (by decide)⟩

/-- C4: the actions of the main control flow are at every moment a prefix of
create(0), create(1), create(2), create(3), create(4), join(0), join(1),
join(2), join(3), join(4); a join is performed only when all five units have
been created; and when `main` has returned the actions are exactly this
sequence. -/
theorem two_phase (sched : List Choice) (s : State) (h : main sched = some s) :
    s.trace <+: specTrace ∧
    (∀ k, Action.join k ∈ s.trace → s.i = 5 ∧ specTrace.take 5 <+: s.trace) ∧
    (∀ c, s.status = .exited c → s.trace = specTrace) := by
  have hi : Inv 5 s := inv_runner h
  refine ⟨?_, ?_, ?_⟩
  · rw [hi.trace_eq]
    exact trace_prefix s.i s.j hi.i_le hi.j_le hi.j_zero
  · intro k hk
    have hj := hi.mem_join hk
    have h5 : s.i = 5 := by
      by_contra hne
      have := hi.j_zero (by have := hi.i_le; omega)
      omega
    refine ⟨h5, ?_⟩
    rw [hi.trace_eq, h5]
    exact ⟨_, rfl⟩
  · intro c hc
    obtain ⟨_, h5, hj5⟩ := hi.exited c hc
    rw [hi.trace_eq, h5, hj5]
    rfl

/-- C4, on the sequential schedule. -/
theorem two_phase_witness :
    main (sequentialSchedule 5) = some sequentialFinal ∧ sequentialFinal.trace = specTrace :=
  ⟨rfl, (two_phase (sequentialSchedule 5) sequentialFinal rfl).2.2 0 rfl⟩

/-! ## Termination and outcomes (C5, C8) -/

theorem exec_append {n : Nat} (a b : List Choice) : ∀ (s : State),
    exec n s (a ++ b) = (exec n s a).bind fun t => exec n t b := by
  induction a with
  | nil => intro s; rfl
  | cons c cs ih =>
    intro s
    rw [List.cons_append]
    show (step n s c).bind (fun t => exec n t (cs ++ b))
      = ((step n s c).bind fun t => exec n t cs).bind fun t => exec n t b
    cases step n s c with
    | none => rfl
    | some t => exact ih t

theorem progress_init : progress init = 0 := rfl

theorem Inv.threads_eq {n : Nat} {s : State} (hi : Inv n s) (hj : s.j = s.i) :
    s.threads = (List.range s.i).map (fun (k : Nat) => ({ id := k, joinable := false } : Handle)) := by
  apply List.ext_getElem?
  intro k
  rcases Nat.lt_or_ge k s.i with hk | hk
  · have hlt : k < s.threads.length := by rw [hi.threads_len]; exact hk
    have hget := List.getElem?_eq_getElem hlt
    obtain ⟨h1, h2⟩ := hi.threads_at k _ hget
    rw [hget]
    simp only [List.getElem?_map, List.getElem?_range hk, Option.map_some']
    congr 1
    cases hu : s.threads[k] with
    | mk a p =>
      rw [hu] at h1 h2
      simp only at h1 h2
      rw [h1]
      cases p with
      | false => rfl
      | true =>
        have := h2.mp rfl
        omega
  · rw [List.getElem?_eq_none (by rw [hi.threads_len]; exact hk)]
    rw [List.getElem?_eq_none (by simpa using hk)]

/-- C5: a run of `main` in which no thread construction fails has at most 26
steps, is never stuck while `main` has not returned, can always be continued
to the return of `main`, which comes after the 5 creations and the 5 joins
at step 26 exactly, and the only exit status it produces is 0. -/
theorem main_terminates (sched : List Choice) (s : State) (h : main sched = some s)
    (hok : Choice.spawnFails ∉ sched) :
    sched.length ≤ 26 ∧
    (s.status = .running ∨ s.status = .exited 0) ∧
    (s.status = .running → ∃ c, c ≠ Choice.spawnFails ∧ (step 5 s c).isSome = true) ∧
    (s.status = .exited 0 ↔ sched.length = 26) ∧
    (∃ ext s', Choice.spawnFails ∉ ext ∧ main (sched ++ ext) = some s' ∧
      s'.status = .exited 0 ∧ (sched ++ ext).length = 26 ∧ s'.trace = specTrace) := by
  have hi : Inv 5 s := inv_runner h
  have hp : progress s = sched.length := by
    have := progress_exec h
    rw [progress_init] at this
    omega
  have hle := progress_le hi
  have hst : s.status = .running ∨ s.status = .exited 0 := by
    rcases exec_status (inv_init 5) rfl h with ⟨h1, _⟩ | ⟨_, h2⟩
    · exact absurd h1 hok
    · exact h2
  have hiff : s.status = .exited 0 ↔ sched.length = 26 := by
    constructor
    · intro he
      have := progress_exited hi he
      omega
    · intro hl
      rcases hst with h1 | h1
      · exact absurd h1 (not_running_of_progress hi (by omega))
      · exact h1
  refine ⟨by omega, hst, fun hr => step_enabled hi hr, hiff, ?_⟩
  rcases hst with hr | he
  · obtain ⟨ext, s', h1, h2, h3⟩ := exec_complete _ s hi hr rfl
    have hrun : main (sched ++ ext) = some s' := by
      show exec 5 init (sched ++ ext) = some s'
      rw [exec_append]
      have h' : exec 5 init sched = some s := h
      rw [h']
      exact h2
    have hi' : Inv 5 s' := inv_runner hrun
    have hp' := progress_exec hrun
    rw [progress_init, progress_exited hi' h3] at hp'
    obtain ⟨_, h5, hj5⟩ := hi'.exited 0 h3
    refine ⟨ext, s', h1, hrun, h3, by omega, ?_⟩
    rw [hi'.trace_eq, h5, hj5]
    rfl
  · obtain ⟨_, h5, hj5⟩ := hi.exited 0 he
    refine ⟨[], s, by simp, by simpa using h, he, by simpa using hiff.mp he, ?_⟩
    rw [hi.trace_eq, h5, hj5]
    rfl

/-- C5, on the sequential schedule, which has 26 steps. -/
theorem main_terminates_witness :
    main (sequentialSchedule 5) = some sequentialFinal ∧
    Choice.spawnFails ∉ sequentialSchedule 5 ∧
    (sequentialSchedule 5).length ≤ 26 ∧
    (sequentialFinal.status = .exited 0 ↔ (sequentialSchedule 5).length = 26) :=
  ⟨rfl, by decide,
   (main_terminates (sequentialSchedule 5) sequentialFinal rfl (by decide)).1,
   (main_terminates (sequentialSchedule 5) sequentialFinal rfl (by decide)).2.2.2.1⟩

/-- C8: a run of `main` that has ended has ended in one of two ways: `main`
returned 0 with no thread construction failed, all five units created and
returned from `f`, and all five handles joined; or a thread construction
failed and the process aborted, with fewer than five units created and no
exit status. -/
theorem two_outcomes (sched : List Choice) (s : State) (h : main sched = some s)
    (hend : s.status ≠ .running) :
    (s.status = .exited 0 ∧ Choice.spawnFails ∉ sched ∧
      s.units = [⟨0, 3⟩, ⟨1, 3⟩, ⟨2, 3⟩, ⟨3, 3⟩, ⟨4, 3⟩] ∧
      s.threads = [⟨0, false⟩, ⟨1, false⟩, ⟨2, false⟩, ⟨3, false⟩, ⟨4, false⟩] ∧
      s.trace = specTrace) ∨
    (s.status = .aborted ∧ Choice.spawnFails ∈ sched ∧ s.units.length < 5 ∧ s.j = 0) := by
  have hi : Inv 5 s := inv_runner h
  rcases exec_status (inv_init 5) rfl h with ⟨h1, h2⟩ | ⟨h1, h2 | h2⟩
  · right
    have hlt := hi.aborted h2
    exact ⟨h2, h1, by rw [hi.units_len]; exact hlt, hi.j_zero hlt⟩
  · exact absurd h2 hend
  · left
    obtain ⟨_, h5, hj5⟩ := hi.exited 0 h2
    refine ⟨h2, h1, ?_, ?_, ?_⟩
    · rw [hi.units_eq (hj5.trans h5.symm), h5]
      rfl
    · rw [hi.threads_eq (hj5.trans h5.symm), h5]
      rfl
    · rw [hi.trace_eq, h5, hj5]
      rfl

/-- C8, on a run that returns and on a run whose third thread construction
fails. -/
theorem two_outcomes_witness :
    (main (sequentialSchedule 5) = some sequentialFinal ∧
      sequentialFinal.status = .exited 0 ∧ sequentialFinal.trace = specTrace) ∧
    (main [.main, .main, .unit 0, .spawnFails]).map State.status = some .aborted := by
  refine ⟨⟨rfl, rfl, ?_⟩, by decide⟩
  rcases two_outcomes (sequentialSchedule 5) sequentialFinal rfl (by decide) with h1 | h1
  · exact h1.2.2.2.2
  · exact absurd h1.1 (by decide)

/-! ## The runner for an arbitrary task count (C9) -/

/-- C9: for the runner with loop bound `n`, the loop counter never exceeds
`n`, the units created so far have the arguments 0,1,2,... in this order,
and the actions of the main control flow are the creations followed by the
joins; when the runner has returned, its status is 0, exactly `n` units with
the arguments 0 to n-1 have been created and have returned, and exactly `n`
joins have been performed; a run in which no thread construction fails can
always be continued to the return; for `n = 0` no unit is ever created, the
output stays empty, and the first step returns 0; and `main` is the runner
for `n = 5`. -/
theorem runner_general (n : Nat) (sched : List Choice) (s : State)
    (h : runner n sched = some s) :
    s.i ≤ n ∧ s.j ≤ s.i ∧ s.units.length = s.i ∧
    s.units.map ExecUnit.arg = (List.range s.i).map (fun (k : Nat) => (k : Int)) ∧
    s.trace = (List.range s.i).map (fun (k : Nat) => Action.create k (k : Int))
      ++ (List.range s.j).map Action.join ∧
    (∀ c, s.status = .exited c → c = 0 ∧ s.i = n ∧ s.j = n ∧
      s.units = (List.range n).map (fun (k : Nat) => ({ arg := (k : Int), pc := 3 } : ExecUnit))) ∧
    (Choice.spawnFails ∉ sched → ∃ ext s', Choice.spawnFails ∉ ext ∧
      runner n (sched ++ ext) = some s' ∧ s'.status = .exited 0) ∧
    (n = 0 → s.units = [] ∧ s.trace = [] ∧ s.out = [] ∧ lines s.out = []) ∧
    runner 0 [.main] = some { init with status := .exited 0 } ∧
    main = runner 5 := by
  have hi : Inv n s := inv_runner h
  refine ⟨hi.i_le, hi.j_le, hi.units_len, hi.units_args, hi.trace_eq, ?_, ?_, ?_, rfl, rfl⟩
  · intro c hc
    obtain ⟨h0, h1, h2⟩ := hi.exited c hc
    refine ⟨h0, h1, h2, ?_⟩
    rw [hi.units_eq (h2.trans h1.symm), h1]
  · intro hok
    rcases exec_status (inv_init n) rfl h with ⟨h1, _⟩ | ⟨_, hr | he⟩
    · exact absurd h1 hok
    · obtain ⟨ext, s', h1, h2, h3⟩ := exec_complete _ s hi hr rfl
      refine ⟨ext, s', h1, ?_, h3⟩
      show exec n init (sched ++ ext) = some s'
      rw [exec_append]
      have h' : exec n init sched = some s := h
      rw [h']
      exact h2
    · exact ⟨[], s, by simp, by simpa using h, he⟩
  · intro h0
    have hi0 : s.i = 0 := by have := hi.i_le; omega
    have hj0 : s.j = 0 := by have := hi.j_le; omega
    have hu : s.units = [] := List.length_eq_zero.mp (hi.units_len.trans hi0)
    have ho : s.out = [] := by
      have hperm : OutInv s := outInv_exec outInv_init h
      unfold OutInv at hperm
      rw [hu] at hperm
      exact List.Perm.eq_nil hperm
    refine ⟨hu, ?_, ho, ?_⟩
    · rw [hi.trace_eq, hi0, hj0]
      rfl
    · rw [ho]
      rfl

/-- C9, for `n = 0`: the first step returns 0 and nothing has been written. -/
theorem runner_general_witness :
    runner 0 [.main] = some { init with status := .exited 0 } ∧
    ({ init with status := .exited 0 } : State).out = [] :=
  ⟨rfl, ((runner_general 0 [.main] { init with status := .exited 0 } rfl).2.2.2.2.2.2.2.1
    rfl).2.2.1⟩

/-! ## The order of the output lines (C6) -/

theorem createdArgs_trace (i j : Nat) :
    createdArgs ((List.range i).map (fun (k : Nat) => Action.create k (k : Int))
      ++ (List.range j).map Action.join) = (List.range i).map (fun (k : Nat) => (k : Int)) := by
  unfold createdArgs
  rw [List.filterMap_append, List.filterMap_map, List.filterMap_map]
  have h1 : ∀ (l : List Nat), l.filterMap ((fun a => match a with
      | Action.create _ arg => some arg
      | Action.join _ => none) ∘ Action.join) = [] := by
    intro l
    induction l with
    | nil => rfl
    | cons a l ih => simp [List.filterMap_cons]
  have h2 : ∀ (l : List Nat), l.filterMap ((fun a => match a with
      | Action.create _ arg => some arg
      | Action.join _ => none) ∘ (fun (k : Nat) => Action.create k (k : Int)))
      = l.map (fun (k : Nat) => (k : Int)) := by
    intro l
    induction l with
    | nil => rfl
    | cons a l ih => simpa [List.filterMap_cons] using ih
  rw [h1, h2, List.append_nil]

/-- C6: two schedules of `main` run to its return with different sequences
of output lines, one of them in an order other than 0,1,2,3,4; and in every
run the units are created in the order 0,1,2,3,4. -/
theorem output_order_not_fixed :
    (∃ s1 s2, main (sequentialSchedule 5) = some s1 ∧ main reverseSchedule = some s2 ∧
      s1.status = .exited 0 ∧ s2.status = .exited 0 ∧
      lines s1.out = ["i is: 0", "i is: 1", "i is: 2", "i is: 3", "i is: 4"] ∧
      lines s2.out = ["i is: 4", "i is: 3", "i is: 2", "i is: 1", "i is: 0"] ∧
      lines s1.out ≠ lines s2.out) ∧
    (∀ sched s, main sched = some s →
      createdArgs s.trace = (List.range s.i).map (fun (k : Nat) => (k : Int)) ∧
      createdArgs s.trace <+: [0, 1, 2, 3, 4] ∧
      (∀ c, s.status = .exited c → createdArgs s.trace = [0, 1, 2, 3, 4])) := by
  constructor
  · refine ⟨sequentialFinal, finalState "i is: 4\ni is: 3\ni is: 2\ni is: 1\ni is: 0\n".toList,
      rfl, rfl, rfl, rfl, ?_, ?_, ?_⟩ <;> decide
  · intro sched s h
    have hi : Inv 5 s := inv_runner h
    have hc : createdArgs s.trace = (List.range s.i).map (fun (k : Nat) => (k : Int)) := by
      rw [hi.trace_eq, createdArgs_trace]
    refine ⟨hc, ?_, ?_⟩
    · rw [hc]
      have h5 := hi.i_le
      generalize s.i = i at h5
      interval_cases i <;> decide
    · intro c he
      rw [hc, (hi.exited c he).2.1]
      rfl

/-- C6, the creation order on the schedule that writes the lines in reverse. -/
theorem output_order_not_fixed_witness :
    main reverseSchedule
      = some (finalState "i is: 4\ni is: 3\ni is: 2\ni is: 1\ni is: 0\n".toList) ∧
    createdArgs (finalState "i is: 4\ni is: 3\ni is: 2\ni is: 1\ni is: 0\n".toList).trace
      = [0, 1, 2, 3, 4] :=
  ⟨rfl, ((output_order_not_fixed.2 reverseSchedule
    (finalState "i is: 4\ni is: 3\ni is: 2\ni is: 1\ni is: 0\n".toList) rfl).2.2 0 rfl)⟩

/-! ## The output of complete runs (C1, C10) -/

theorem lineText_no_newline (k : Nat) (hk : k < 5) : '\n' ∉ lineText k := by
  interval_cases k <;> decide

theorem lines_blocks (ks : List Nat) (hk : ∀ k ∈ ks, k < 5) :
    lines (ks.flatMap line) = ks.map fun k => String.mk (lineText k) := by
  have h1 : (ks.flatMap line) = ks.flatMap fun k => lineText k ++ ['\n'] := by
    exact congrArg (fun g => ks.flatMap g) (funext line_eq)
  rw [h1]
  exact lines_flatMap lineText ks (fun k hmem => lineText_no_newline k (hk k hmem))

/-- A complete run of `main` whose units write their lines atomically: the
output is the five lines, in the order in which the units wrote. -/
theorem atomic_lines {sched : List Choice} {s : State} (h : main sched = some s)
    (hs : s.status = .exited 0) (ha : lineAtomic sched) :
    ∃ ks : List Nat, ks.Perm [0, 1, 2, 3, 4] ∧ s.out = ks.flatMap line ∧
      lines s.out = ks.map fun k => String.mk (lineText k) := by
  obtain ⟨ks, hks⟩ := Option.isSome_iff_exists.mp ha
  obtain ⟨h1, h2⟩ := atomic_output h hs hks
  refine ⟨ks, h2, h1, ?_⟩
  rw [h1]
  apply lines_blocks
  intro k hk
  exact List.mem_range.mp ((List.Perm.mem_iff h2).mp hk)

theorem map_lineText_perm {ks : List Nat} (h : ks.Perm [0, 1, 2, 3, 4]) :
    (ks.map fun k => String.mk (lineText k)).Perm specLines :=
  List.Perm.map _ h

/-- C1, as stated, fails: on the schedule in which units 0 and 1 alternate
their insertions `main` returns 0 and the output has the lines
"i is: i is: 01" and "", so its lines are not the five lines `i is: <k>`. -/
theorem interleaved_output_malformed :
    ∃ s, main interleavedSchedule = some s ∧ s.status = .exited 0 ∧
      lines s.out = ["i is: i is: 01", "", "i is: 2", "i is: 3", "i is: 4"] ∧
      ¬ (lines s.out).Perm specLines :=
  ⟨finalState "i is: i is: 01\n\ni is: 2\ni is: 3\ni is: 4\n".toList, rfl, rfl, by decide,
    by decide⟩

/-- C1, amended: in every run of `main` that returns, the final output is a
rearrangement of the characters of the five lines, contains the text of the
line of every unit as a subsequence, and has exactly 5 lines, each ended by
an end-of-line; and when every unit writes its line atomically the output
consists of exactly the 5 lines `i is: <k>`, with `k` running over a
rearrangement of 0,1,2,3,4. -/
theorem output_lines (sched : List Choice) (s : State) (h : main sched = some s)
    (hs : s.status = .exited 0) :
    s.out.Perm "i is: 0\ni is: 1\ni is: 2\ni is: 3\ni is: 4\n".toList ∧
    (∀ k, k < 5 → (line k).Sublist s.out) ∧
    s.out.count '\n' = 5 ∧
    (lines s.out).length = 5 ∧
    (lineAtomic sched → ∃ ks : List Nat, ks.Perm [0, 1, 2, 3, 4] ∧
      lines s.out = ks.map fun k => "i is: " ++ toString k) := by
  have hi : Inv 5 s := inv_runner h
  obtain ⟨_, h5, hj5⟩ := hi.exited 0 hs
  have hperm : s.out.Perm "i is: 0\ni is: 1\ni is: 2\ni is: 3\ni is: 4\n".toList := by
    have ho : OutInv s := outInv_exec outInv_init h
    unfold OutInv at ho
    rw [hi.units_eq (hj5.trans h5.symm), h5] at ho
    exact ho
  have hcount : s.out.count '\n' = 5 := by
    rw [List.Perm.count_eq hperm]
    decide
  refine ⟨hperm, ?_, hcount, ?_, ?_⟩
  · intro k hk
    have hsub := sublist_exec (s := init) (fun w hw => by simp [init] at hw) h
    have hu := hi.units_eq (hj5.trans h5.symm)
    have hmem : ({ arg := (k : Int), pc := 3 } : ExecUnit) ∈ s.units := by
      rw [hu]
      exact List.mem_map.mpr ⟨k, List.mem_range.mpr (by omega), rfl⟩
    have := hsub _ hmem
    simpa [written, f, line, callF] using this
  · have he : EndInv s := endInv_exec endInv_init h
    rw [lines_length (he (fun w hw => Or.inr (hi.all_done (hj5.trans h5.symm) w hw))), hcount]
  · intro ha
    obtain ⟨ks, h1, _, h3⟩ := atomic_lines h hs ha
    refine ⟨ks, h1, ?_⟩
    rw [h3]
    apply List.map_congr_left
    intro k hk
    have hk5 : k ∈ [0, 1, 2, 3, 4] := (List.Perm.mem_iff h1).mp hk
    simp only [List.mem_cons, List.mem_singleton, List.not_mem_nil, or_false] at hk5
    rcases hk5 with rfl | rfl | rfl | rfl | rfl <;> decide

/-- C1 amended, on the schedule that writes the lines in reverse order. -/
theorem output_lines_witness :
    main reverseSchedule
      = some (finalState "i is: 4\ni is: 3\ni is: 2\ni is: 1\ni is: 0\n".toList) ∧
    lineAtomic reverseSchedule ∧
    (lines "i is: 4\ni is: 3\ni is: 2\ni is: 1\ni is: 0\n".toList).length = 5 ∧
    ∃ ks : List Nat, ks.Perm [0, 1, 2, 3, 4] ∧
      lines "i is: 4\ni is: 3\ni is: 2\ni is: 1\ni is: 0\n".toList
        = ks.map fun k => "i is: " ++ toString k :=
  ⟨rfl, by decide,
   (output_lines reverseSchedule
      (finalState "i is: 4\ni is: 3\ni is: 2\ni is: 1\ni is: 0\n".toList) rfl rfl).2.2.2.1,
   (output_lines reverseSchedule
      (finalState "i is: 4\ni is: 3\ni is: 2\ni is: 1\ni is: 0\n".toList) rfl rfl).2.2.2.2
      (by decide)⟩

/-- C10: with the thread constructions replaced by direct calls the output
is the five lines "i is: 0" to "i is: 4" in this order; the sequential
schedule of `main` returns 0 with the same output; and every run of `main`
that returns and in which every unit writes its line atomically has as
output a rearrangement of these five lines. -/
theorem sequential_refinement :
    mainSequential = "i is: 0\ni is: 1\ni is: 2\ni is: 3\ni is: 4\n".toList ∧
    lines mainSequential = specLines ∧
    (main (sequentialSchedule 5)).map (fun s => (s.status, s.out))
      = some (.exited 0, mainSequential) ∧
    (∀ sched s, main sched = some s → s.status = .exited 0 → lineAtomic sched →
      (lines s.out).Perm specLines ∧
      ∃ ls : List (List Char), ls.Perm ((List.range 5).map line) ∧ s.out = ls.flatten) := by
  refine ⟨by decide, by decide, by decide, ?_⟩
  intro sched s h hs ha
  obtain ⟨ks, h1, h2, h3⟩ := atomic_lines h hs ha
  refine ⟨?_, ks.map line, List.Perm.map _ h1, ?_⟩
  · rw [h3]
    exact map_lineText_perm h1
  · rw [h2, List.flatMap_def]

/-- C10, on the schedule that writes the lines in reverse order. -/
theorem sequential_refinement_witness :
    main reverseSchedule
      = some (finalState "i is: 4\ni is: 3\ni is: 2\ni is: 1\ni is: 0\n".toList) ∧
    lineAtomic reverseSchedule ∧
    (lines "i is: 4\ni is: 3\ni is: 2\ni is: 1\ni is: 0\n".toList).Perm specLines :=
  ⟨rfl, by decide,
   (sequential_refinement.2.2.2 reverseSchedule
      (finalState "i is: 4\ni is: 3\ni is: 2\ni is: 1\ni is: 0\n".toList) rfl rfl
      (by decide)).1⟩

end ThreadVector
